import Mathlib

/-!
Shallow embedding of `automerge/src/query/nth.rs` (the `Nth` position query)
together with the collaborator contracts it consumes.  The `Nth` struct and
its methods (`new`, `with_marks`, `key`, `index`, `pos`, `equiv`,
`can_shortcut_search`, `query_node`, `query_element`) are translated from the
source file.  Collaborators that are not part of the source tree (`ListState`,
`OpTree`, `Clock`, `MarkMap`, the tree walker) are modelled from the
specification, as noted on each definition.
-/

namespace Automerge

/-- Operation identifier: actor plus monotonically increasing counter. -/
structure OpId where
  actor : Nat
  counter : Nat
deriving DecidableEq

/-- Logical key of an operation: a map property index or a list element id. -/
inductive Key where
  | map (prop : Nat)
  | seq (e : OpId)
deriving DecidableEq

/-- Modelled from the spec: the payload-relevant part of an operation's
action, as consumed by the mark overlay accumulator (mark begin / mark end /
anything else). -/
inductive OpAction where
  | markBegin (data : Nat)
  | markEnd (start : OpId)
  | other
deriving DecidableEq

/-- Modelled from the spec: an operation carries a unique id, a logical key,
an `insert` flag distinguishing "starts a new list element" from
"mutates/tombstones an existing one", and the set of identifiers of the
operations that overwrite (tombstone) it. -/
structure Op where
  id : OpId
  key : Key
  insert : Bool
  succ : List OpId
  action : OpAction
deriving DecidableEq

/-- `Op::elemid`: the element id an operation belongs to (its own id for an
insert, the referenced element otherwise; none for map operations). -/
def Op.elemid (o : Op) : Option OpId :=
  if o.insert then some o.id
  else
    match o.key with
    | Key.seq e => some e
    | Key.map _ => none

/-- `Op::elemid_or_key`: the element key used for position counting. -/
def Op.elemid_or_key (o : Op) : Key :=
  if o.insert then Key.seq o.id else o.key

/-- Modelled from the spec: a causal clock maps actors to the highest counter
considered present. -/
abbrev Clock := List (Nat × Nat)

/-- Modelled from the spec: an operation id is included in a clock when its
counter is at most the clock's value for that actor (absent actor means
included). -/
def Clock.covers (c : Clock) (id : OpId) : Bool :=
  match c.find? (fun p => p.1 == id.actor) with
  | some p => id.counter ≤ p.2
  | none => true

/-- Modelled from the spec: visibility of an operation.  Without a clock, an
operation is visible iff it is not tombstoned in the current state; with a
clock it must be included in the clock and none of its tombstoning
operations may be included. -/
def Op.visible_at (o : Op) (c : Option Clock) : Bool :=
  match c with
  | none => o.succ.isEmpty
  | some c => c.covers o.id && o.succ.all (fun s => ! c.covers s)

/-- List encoding (element count vs. text width); carried through untouched. -/
inductive ListEncoding where
  | list
  | text
deriving DecidableEq

/-- Modelled from the spec: the tree's last-insertion bookmark, a logical
index plus a tree offset. -/
structure LastInsert where
  index : Nat
  pos : Nat
deriving DecidableEq

/-- Modelled from the spec: the per-node data the query consults — the
cached aggregate visible count, the node's total length, and the "clean"
validity flag of the cached aggregate. -/
structure OpTreeNode where
  visibleLen : Nat
  len : Nat
  clean : Bool
deriving DecidableEq

/-- Modelled from the spec: the operation tree interface consumed by the
query — the flat operation sequence in document order plus the
last-insertion bookmark. -/
structure OpTree where
  internal : List Op
  last_insert : Option LastInsert
deriving DecidableEq

/-- Modelled from the spec: the mark overlay accumulator's log of
(operation id, mark payload) begin events. -/
abbrev MarkMap := List (OpId × Nat)

/-- Modelled from the spec: feed one operation to the mark overlay
accumulator — a begin event is appended to the log, an end event retires the
matching begin, anything else leaves the log unchanged. -/
def MarkMap.process (m : MarkMap) (e : Op) : MarkMap :=
  match e.action with
  | OpAction.markBegin d => m ++ [(e.id, d)]
  | OpAction.markEnd s => m.filter (fun p => p.1 ≠ s)
  | OpAction.other => m

/-- Result of one traversal step. -/
inductive QueryResult where
  | next
  | descend
  | finish
deriving DecidableEq

/-- Modelled from the spec: the position cursor (`ListState`) — target
index (fixed at construction), running count of visible elements, tree
offset reached, last counted element key, and the advisory flag recording
whether the current node's cached aggregate may be trusted. -/
structure ListState where
  encoding : ListEncoding
  target : Nat
  count : Nat
  pos : Nat
  lastKey : Option Key
  clean : Bool
deriving DecidableEq

/-- Modelled from the spec: a fresh cursor aiming at `target`. -/
def ListState.new (encoding : ListEncoding) (target : Nat) : ListState :=
  ⟨encoding, target, 0, 0, none, true⟩

/-- Modelled from the spec: the cursor is done once the running count has
reached the target. -/
def ListState.done (s : ListState) : Bool := s.target ≤ s.count

/-- Modelled from the spec: the last resolved logical index. -/
def ListState.last_index (s : ListState) : Nat := s.count - 1

/-- Modelled from the spec: jump the cursor directly to the last-insertion
bookmark. -/
def ListState.seek (s : ListState) (last : LastInsert) : ListState :=
  { s with count := last.index + 1, pos := last.pos + 1 }

/-- Modelled from the spec: single-element cursor update — a visible
operation with a new element key counts one more visible element; every
operation advances the tree offset. -/
def ListState.process_op (s : ListState) (_op : Op) (key : Key)
    (visible : Bool) : ListState :=
  if visible then
    if s.lastKey = some key then { s with pos := s.pos + 1 }
    else { s with count := s.count + 1, lastKey := some key, pos := s.pos + 1 }
  else { s with pos := s.pos + 1 }

/-- Modelled from the spec: record whether the node's cached aggregate is
still valid for skip decisions. -/
def ListState.check_if_node_is_clean (s : ListState) (node : OpTreeNode) :
    ListState :=
  { s with clean := node.clean }

/-- Modelled from the spec: bulk skip over a whole subtree using the node's
cached aggregate visible count.  Skipping is disabled when marks are being
accumulated, when the aggregate is untrustworthy, and when the target may
lie inside the node. -/
def ListState.process_node (s : ListState) (node : OpTreeNode)
    (_ops : List Op) (marksPresent : Bool) : ListState × QueryResult :=
  if marksPresent then (s, QueryResult.descend)
  else if !s.clean then (s, QueryResult.descend)
  else if s.target ≤ s.count + node.visibleLen then (s, QueryResult.descend)
  else ({ s with count := s.count + node.visibleLen, pos := s.pos + node.len },
    QueryResult.next)

/-- The only error `Nth::key` can produce. -/
inductive AutomergeError where
  | invalidIndex (n : Nat)
deriving DecidableEq

/-- `Result<Key, AutomergeError>` as returned by `Nth::key`. -/
inductive KeyResult where
  | ok (k : Key)
  | err (e : AutomergeError)
deriving DecidableEq

/-- The `Nth` query state, translated from `nth.rs`. -/
structure Nth where
  idx : ListState
  clock : Option Clock
  marks : Option MarkMap
  ops : List Op
  ops_pos : List Nat
deriving DecidableEq

/-- `Nth::new`: note the cursor target is the requested index plus one. -/
def Nth.new (target : Nat) (encoding : ListEncoding) (clock : Option Clock) :
    Nth :=
  ⟨ListState.new encoding (target + 1), clock, none, [], []⟩

/-- `Nth::with_marks`: enable mark accumulation with an empty log. -/
def Nth.with_marks (n : Nth) : Nth := { n with marks := some [] }

/-- `Nth::key`: the element id of the first resolved operation, or
`InvalidIndex(target().saturating_sub(1))` when none resolved. -/
def Nth.key (n : Nth) : KeyResult :=
  match n.ops.head?.bind Op.elemid with
  | some e => KeyResult.ok (Key.seq e)
  | none => KeyResult.err (AutomergeError.invalidIndex (n.idx.target - 1))

/-- `Nth::index`. -/
def Nth.index (n : Nth) : Nat := n.idx.last_index

/-- `Nth::pos`. -/
def Nth.pos (n : Nth) : Nat := n.idx.pos

/-- `TreeQuery::equiv` for `Nth`. -/
def Nth.equiv (a b : Nth) : Bool :=
  a.index == b.index && decide (a.key = b.key)

/-- `Nth::can_shortcut_search`, returning the (possibly) updated query state
together with the boolean result. -/
def Nth.can_shortcut_search (n : Nth) (tree : OpTree) : Nth × Bool :=
  if n.marks.isSome then (n, false)
  else
    match tree.last_insert with
    | some last =>
      if last.index = n.idx.target - 1 then
        match tree.internal.get? last.pos with
        | some op =>
          ({ n with
              idx := n.idx.seek last
              ops := n.ops ++ [op]
              ops_pos := n.ops_pos ++ [last.pos] }, true)
        | none => (n, false)
      else (n, false)
    | none => (n, false)

/-- `Nth::query_node`. -/
def Nth.query_node (n : Nth) (child : OpTreeNode) (ops : List Op) :
    Nth × QueryResult :=
  let idx1 := n.idx.check_if_node_is_clean child
  if n.clock.isNone then
    let r := idx1.process_node child ops n.marks.isSome
    ({ n with idx := r.1 }, r.2)
  else ({ n with idx := idx1 }, QueryResult.descend)

/-- `Nth::query_element`. -/
def Nth.query_element (n : Nth) (element : Op) : Nth × QueryResult :=
  if element.insert && n.idx.done then (n, QueryResult.finish)
  else
    let marks := n.marks.map (fun m => m.process element)
    let visible := element.visible_at n.clock
    let key := element.elemid_or_key
    let idx := n.idx.process_op element key visible
    if visible && idx.done then
      ({ n with
          idx := idx
          marks := marks
          ops := n.ops ++ [element]
          ops_pos := n.ops_pos ++ [idx.pos - 1] }, QueryResult.next)
    else ({ n with idx := idx, marks := marks }, QueryResult.next)

/-- Modelled from the spec: the query controller's traversal loop
(`OpTreeInternal::search` is not part of the source tree): feed the
operations to `query_element` in document order until it reports finish. -/
def Nth.walk (n : Nth) : List Op → Nth
  | [] => n
  | e :: rest =>
    match n.query_element e with
    | (n1, QueryResult.finish) => n1
    | (n1, QueryResult.next) => n1.walk rest
    | (n1, QueryResult.descend) => n1.walk rest

/-! ### Concrete states used as counterexamples and witnesses -/

/-- A first insert operation (actor 0, counter 1), live at tip. -/
def exOp0 : Op :=
  ⟨⟨0, 1⟩, Key.map 0, true, [], OpAction.other⟩

/-- A second insert operation (actor 0, counter 2), live at tip. -/
def exOp1 : Op :=
  ⟨⟨0, 2⟩, Key.map 0, true, [], OpAction.other⟩

/-- A clock that includes actor 0 only up to counter 1 (it excludes
`exOp1`). -/
def exClock : Clock := [(0, 1)]

/-- A two-element tree whose last-insertion bookmark points at `exOp1`
(tip index 1, tree offset 1). -/
def exTree : OpTree := ⟨[exOp0, exOp1], some ⟨1, 1⟩⟩

/-- The query `Nth::new(1, List, Some(exClock))`: target index 1 as of the
snapshot `exClock`. -/
def exQueryClock : Nth := Nth.new 1 ListEncoding.list (some exClock)

/-! ### Logical elements (blocks) of a well-formed document

A well-formed operation sequence is a concatenation of element blocks: each
block starts with an insert operation and is followed by the non-insert
operations keyed to that element. -/

/-- The operations of one logical element: its insert operation followed by
its followers. -/
def blockOps (b : Op × List Op) : List Op := b.1 :: b.2

/-- A well-formed element block: the head operation has the insert flag and
every follower is a non-insert operation keyed to the head's element id. -/
def isBlock (b : Op × List Op) : Prop :=
  b.1.insert = true ∧ ∀ o ∈ b.2, o.insert = false ∧ o.key = Key.seq b.1.id

instance (b : Op × List Op) : Decidable (isBlock b) := by
  unfold isBlock
  infer_instance

/-- The flat document-order operation sequence of a list of blocks. -/
def docOps : List (Op × List Op) → List Op
  | [] => []
  | b :: rest => blockOps b ++ docOps rest

/-- An element is visible at a snapshot when any of its operations is. -/
def blockVisible (c : Option Clock) (b : Op × List Op) : Bool :=
  (blockOps b).any (fun o => o.visible_at c)

/-- The number of visible elements of a block list at a snapshot. -/
def visibleLength (c : Option Clock) : List (Op × List Op) → Nat
  | [] => 0
  | b :: rest => (if blockVisible c b then 1 else 0) + visibleLength c rest

/-! ### Further concrete states -/

/-- A marks-enabled query for target 1: `Nth::new(1, List, None).with_marks()`. -/
def exMarksQuery : Nth := (Nth.new 1 ListEncoding.list none).with_marks

/-- An invisible (tombstoned) mark-begin operation by actor 1. -/
def exMarkOp : Op :=
  ⟨⟨1, 5⟩, Key.seq ⟨0, 1⟩, false, [⟨1, 9⟩], OpAction.markBegin 3⟩

/-- A marks-enabled query for target 0 that has already resolved its target
after walking `[exOp0]` (its cursor reports done). -/
def exDoneQuery : Nth :=
  ((Nth.new 0 ListEncoding.list none).with_marks).walk [exOp0]

/-- A query for target 1 (no clock) that walked a one-element document and
resolved nothing. -/
def exMissQuery : Nth := (Nth.new 1 ListEncoding.list none).walk [exOp0]

/-- A fresh query for target 0. -/
def exPlain : Nth := Nth.new 0 ListEncoding.list none

/-- The same cursor state as `exPlain` but with different marks, clock and
recorded positions. -/
def exDressed : Nth :=
  { exPlain with
      marks := some []
      clock := some exClock
      ops_pos := [5] }

/-- A two-element block-structured document built from `exOp0` and
`exOp1`. -/
def exBlocks : List (Op × List Op) := [(exOp0, []), (exOp1, [])]

/-! ### Step-shape lemmas for `query_element` and `walk` -/

theorem ListState.process_op_target (s : ListState) (op : Op) (key : Key)
    (visible : Bool) : (s.process_op op key visible).target = s.target := by
  unfold ListState.process_op
  split
  · split <;> rfl
  · rfl

theorem Nth.query_element_target (n : Nth) (e : Op) :
    ((n.query_element e).1).idx.target = n.idx.target := by
  unfold Nth.query_element
  split
  · rfl
  · dsimp only
    split <;> simp [ListState.process_op_target]

theorem Nth.walk_target (n : Nth) (l : List Op) :
    (n.walk l).idx.target = n.idx.target := by
  induction l generalizing n with
  | nil => rfl
  | cons e rest ih =>
    rcases h : n.query_element e with ⟨n1, r⟩
    have ht : n1.idx.target = n.idx.target := by
      have := n.query_element_target e
      rw [h] at this
      exact this
    cases r with
    | finish => simp [Nth.walk, h, ht]
    | next => rw [Nth.walk, h]; simp only []; rw [ih, ht]
    | descend => rw [Nth.walk, h]; simp only []; rw [ih, ht]

theorem Nth.qe_finish (n : Nth) (e : Op) (h1 : e.insert = true)
    (h2 : n.idx.done = true) : n.query_element e = (n, QueryResult.finish) := by
  simp [Nth.query_element, h1, h2]

theorem Nth.qe_invisible (n : Nth) (e : Op)
    (h : (e.insert && n.idx.done) = false)
    (hv : e.visible_at n.clock = false) :
    n.query_element e =
      ({ n with
          idx := { n.idx with pos := n.idx.pos + 1 }
          marks := n.marks.map (fun m => m.process e) }, QueryResult.next) := by
  simp [Nth.query_element, h, hv, ListState.process_op]

theorem Nth.qe_visible_seen_not_done (n : Nth) (e : Op)
    (h : (e.insert && n.idx.done) = false)
    (hv : e.visible_at n.clock = true)
    (hk : n.idx.lastKey = some e.elemid_or_key)
    (hd : n.idx.done = false) :
    n.query_element e =
      ({ n with
          idx := { n.idx with pos := n.idx.pos + 1 }
          marks := n.marks.map (fun m => m.process e) }, QueryResult.next) := by
  simp only [Nth.query_element, h, hv, ListState.process_op, if_pos hk,
    if_true, Bool.false_eq_true, if_false, Bool.true_and]
  have hd' : ListState.done { n.idx with pos := n.idx.pos + 1 } = false := hd
  simp [hd']

theorem Nth.qe_visible_seen_done (n : Nth) (e : Op)
    (h : (e.insert && n.idx.done) = false)
    (hv : e.visible_at n.clock = true)
    (hk : n.idx.lastKey = some e.elemid_or_key)
    (hd : n.idx.done = true) :
    n.query_element e =
      ({ n with
          idx := { n.idx with pos := n.idx.pos + 1 }
          marks := n.marks.map (fun m => m.process e)
          ops := n.ops ++ [e]
          ops_pos := n.ops_pos ++ [n.idx.pos] }, QueryResult.next) := by
  simp only [Nth.query_element, h, hv, ListState.process_op, if_pos hk,
    if_true, Bool.false_eq_true, if_false, Bool.true_and]
  have hd' : ListState.done { n.idx with pos := n.idx.pos + 1 } = true := hd
  simp [hd']

theorem Nth.qe_visible_new_not_reached (n : Nth) (e : Op)
    (h : (e.insert && n.idx.done) = false)
    (hv : e.visible_at n.clock = true)
    (hk : n.idx.lastKey ≠ some e.elemid_or_key)
    (hd : ¬ n.idx.target ≤ n.idx.count + 1) :
    n.query_element e =
      ({ n with
          idx := { n.idx with
                    count := n.idx.count + 1
                    lastKey := some e.elemid_or_key
                    pos := n.idx.pos + 1 }
          marks := n.marks.map (fun m => m.process e) }, QueryResult.next) := by
  simp only [Nth.query_element, h, hv, ListState.process_op, if_neg hk,
    if_true, Bool.false_eq_true, if_false, Bool.true_and]
  have hd' : ListState.done { n.idx with
      count := n.idx.count + 1
      lastKey := some e.elemid_or_key
      pos := n.idx.pos + 1 } = false := by
    simp [ListState.done, hd]
  simp [hd']

theorem Nth.qe_visible_new_reached (n : Nth) (e : Op)
    (h : (e.insert && n.idx.done) = false)
    (hv : e.visible_at n.clock = true)
    (hk : n.idx.lastKey ≠ some e.elemid_or_key)
    (hd : n.idx.target ≤ n.idx.count + 1) :
    n.query_element e =
      ({ n with
          idx := { n.idx with
                    count := n.idx.count + 1
                    lastKey := some e.elemid_or_key
                    pos := n.idx.pos + 1 }
          marks := n.marks.map (fun m => m.process e)
          ops := n.ops ++ [e]
          ops_pos := n.ops_pos ++ [n.idx.pos] }, QueryResult.next) := by
  simp only [Nth.query_element, h, hv, ListState.process_op, if_neg hk,
    if_true, Bool.false_eq_true, if_false, Bool.true_and]
  have hd' : ListState.done { n.idx with
      count := n.idx.count + 1
      lastKey := some e.elemid_or_key
      pos := n.idx.pos + 1 } = true := by
    simp [ListState.done, hd]
  simp [hd']

theorem Nth.walk_cons_next (n : Nth) (e : Op) (l : List Op)
    (h : (n.query_element e).2 = QueryResult.next) :
    n.walk (e :: l) = ((n.query_element e).1).walk l := by
  rcases hq : n.query_element e with ⟨n1, r⟩
  rw [hq] at h
  dsimp at h
  subst h
  simp [Nth.walk, hq]

theorem Nth.walk_cons_finish (n : Nth) (e : Op) (l : List Op)
    (h : (n.query_element e).2 = QueryResult.finish) :
    n.walk (e :: l) = (n.query_element e).1 := by
  rcases hq : n.query_element e with ⟨n1, r⟩
  rw [hq] at h
  dsimp at h
  subst h
  simp [Nth.walk, hq]

theorem Nth.qe_invisible_facts (n : Nth) (e : Op)
    (h : (e.insert && n.idx.done) = false)
    (hv : e.visible_at n.clock = false) :
    (n.query_element e).2 = QueryResult.next ∧
      (n.query_element e).1.idx.target = n.idx.target ∧
      (n.query_element e).1.idx.count = n.idx.count ∧
      (n.query_element e).1.idx.lastKey = n.idx.lastKey ∧
      (n.query_element e).1.idx.done = n.idx.done ∧
      (n.query_element e).1.clock = n.clock ∧
      (n.query_element e).1.ops = n.ops := by
  rw [n.qe_invisible e h hv]
  exact ⟨rfl, rfl, rfl, rfl, rfl, rfl, rfl⟩

theorem Nth.qe_visible_seen_not_done_facts (n : Nth) (e : Op)
    (h : (e.insert && n.idx.done) = false)
    (hv : e.visible_at n.clock = true)
    (hk : n.idx.lastKey = some e.elemid_or_key)
    (hd : n.idx.done = false) :
    (n.query_element e).2 = QueryResult.next ∧
      (n.query_element e).1.idx.target = n.idx.target ∧
      (n.query_element e).1.idx.count = n.idx.count ∧
      (n.query_element e).1.idx.lastKey = n.idx.lastKey ∧
      (n.query_element e).1.idx.done = n.idx.done ∧
      (n.query_element e).1.clock = n.clock ∧
      (n.query_element e).1.ops = n.ops := by
  rw [n.qe_visible_seen_not_done e h hv hk hd]
  exact ⟨rfl, rfl, rfl, rfl, rfl, rfl, rfl⟩

theorem Nth.qe_visible_seen_done_facts (n : Nth) (e : Op)
    (h : (e.insert && n.idx.done) = false)
    (hv : e.visible_at n.clock = true)
    (hk : n.idx.lastKey = some e.elemid_or_key)
    (hd : n.idx.done = true) :
    (n.query_element e).2 = QueryResult.next ∧
      (n.query_element e).1.idx.target = n.idx.target ∧
      (n.query_element e).1.idx.count = n.idx.count ∧
      (n.query_element e).1.idx.lastKey = n.idx.lastKey ∧
      (n.query_element e).1.idx.done = n.idx.done ∧
      (n.query_element e).1.clock = n.clock ∧
      (n.query_element e).1.ops = n.ops ++ [e] := by
  rw [n.qe_visible_seen_done e h hv hk hd]
  exact ⟨rfl, rfl, rfl, rfl, rfl, rfl, rfl⟩

theorem Nth.qe_visible_new_not_reached_facts (n : Nth) (e : Op)
    (h : (e.insert && n.idx.done) = false)
    (hv : e.visible_at n.clock = true)
    (hk : n.idx.lastKey ≠ some e.elemid_or_key)
    (hd : ¬ n.idx.target ≤ n.idx.count + 1) :
    (n.query_element e).2 = QueryResult.next ∧
      (n.query_element e).1.idx.target = n.idx.target ∧
      (n.query_element e).1.idx.count = n.idx.count + 1 ∧
      (n.query_element e).1.idx.lastKey = some e.elemid_or_key ∧
      (n.query_element e).1.clock = n.clock ∧
      (n.query_element e).1.ops = n.ops := by
  rw [n.qe_visible_new_not_reached e h hv hk hd]
  exact ⟨rfl, rfl, rfl, rfl, rfl, rfl⟩

theorem Nth.qe_visible_new_reached_facts (n : Nth) (e : Op)
    (h : (e.insert && n.idx.done) = false)
    (hv : e.visible_at n.clock = true)
    (hk : n.idx.lastKey ≠ some e.elemid_or_key)
    (hd : n.idx.target ≤ n.idx.count + 1) :
    (n.query_element e).2 = QueryResult.next ∧
      (n.query_element e).1.idx.target = n.idx.target ∧
      (n.query_element e).1.idx.count = n.idx.count + 1 ∧
      (n.query_element e).1.idx.lastKey = some e.elemid_or_key ∧
      (n.query_element e).1.clock = n.clock ∧
      (n.query_element e).1.ops = n.ops ++ [e] := by
  rw [n.qe_visible_new_reached e h hv hk hd]
  exact ⟨rfl, rfl, rfl, rfl, rfl, rfl⟩

/-- Walking the followers of an element whose key is already the cursor's
last counted key: the count and last key never change; result operations
can only be appended, and only when the cursor is already done. -/
theorem Nth.walk_followers_seen (fs : List Op) : ∀ (rest : List Op) (n : Nth)
    (k : Key), (∀ o ∈ fs, o.insert = false ∧ o.elemid_or_key = k) →
    n.idx.lastKey = some k →
    ∃ (n' : Nth) (ex : List Op), n.walk (fs ++ rest) = n'.walk rest ∧
      n'.idx.target = n.idx.target ∧ n'.idx.count = n.idx.count ∧
      n'.idx.lastKey = some k ∧ n'.clock = n.clock ∧
      n'.ops = n.ops ++ ex ∧ (n.idx.done = false → ex = []) := by
  induction fs with
  | nil =>
    intro rest n k _ hk
    exact ⟨n, [], rfl, rfl, rfl, hk, rfl, by simp, fun _ => rfl⟩
  | cons o fs ih =>
    intro rest n k hfs hk
    obtain ⟨ho1, ho2⟩ := hfs o (List.mem_cons_self o fs)
    have hfs' : ∀ x ∈ fs, x.insert = false ∧ x.elemid_or_key = k :=
      fun x hx => hfs x (List.mem_cons_of_mem o hx)
    have hnotfin : (o.insert && n.idx.done) = false := by rw [ho1]; rfl
    have hstep : ∃ ex0, (n.query_element o).2 = QueryResult.next ∧
        (n.query_element o).1.idx.target = n.idx.target ∧
        (n.query_element o).1.idx.count = n.idx.count ∧
        (n.query_element o).1.idx.lastKey = n.idx.lastKey ∧
        (n.query_element o).1.idx.done = n.idx.done ∧
        (n.query_element o).1.clock = n.clock ∧
        (n.query_element o).1.ops = n.ops ++ ex0 ∧
        (n.idx.done = false → ex0 = []) := by
      rcases Bool.eq_false_or_eq_true (o.visible_at n.clock) with hv | hv
      · rcases Bool.eq_false_or_eq_true n.idx.done with hd | hd
        · obtain ⟨f1, f2, f3, f4, f5, f6, f7⟩ :=
            n.qe_visible_seen_done_facts o hnotfin hv (ho2 ▸ hk) hd
          refine ⟨[o], f1, f2, f3, f4, f5, f6, f7, fun hf => ?_⟩
          rw [hf] at hd
          cases hd
        · obtain ⟨f1, f2, f3, f4, f5, f6, f7⟩ :=
            n.qe_visible_seen_not_done_facts o hnotfin hv (ho2 ▸ hk) hd
          exact ⟨[], f1, f2, f3, f4, f5, f6, by simp [f7], fun _ => rfl⟩
      · obtain ⟨f1, f2, f3, f4, f5, f6, f7⟩ := n.qe_invisible_facts o hnotfin hv
        exact ⟨[], f1, f2, f3, f4, f5, f6, by simp [f7], fun _ => rfl⟩
    obtain ⟨ex0, f1, f2, f3, f4, f5, f6, f7, f8⟩ := hstep
    obtain ⟨n', ex, hw, ht, hc, hlk, hcl, hops, hdone⟩ :=
      ih rest ((n.query_element o).1) k hfs' (by rw [f4, hk])
    refine ⟨n', ex0 ++ ex, ?_, ?_, ?_, hlk, ?_, ?_, ?_⟩
    · rw [List.cons_append, n.walk_cons_next o (fs ++ rest) f1, hw]
    · rw [ht, f2]
    · rw [hc, f3]
    · rw [hcl, f6]
    · rw [hops, f7, List.append_assoc]
    · intro hf
      rw [f8 hf, hdone (by rw [f5]; exact hf)]
      rfl

/-- Walking followers keyed to `k` when the cursor has not yet counted `k`
and has not yet reached its target: the first visible follower (if any)
counts the element once; the result set changes only if counting it reaches
the target. -/
theorem Nth.walk_followers_new (fs : List Op) : ∀ (rest : List Op) (n : Nth)
    (k : Key), (∀ o ∈ fs, o.insert = false ∧ o.elemid_or_key = k) →
    n.idx.lastKey ≠ some k →
    n.idx.count + 1 ≤ n.idx.target →
    ∃ (n' : Nth), n.walk (fs ++ rest) = n'.walk rest ∧
      n'.idx.target = n.idx.target ∧ n'.clock = n.clock ∧
      (fs.any (fun o => o.visible_at n.clock) = true →
        n'.idx.count = n.idx.count + 1 ∧ n'.idx.lastKey = some k ∧
        (n.idx.count + 2 ≤ n.idx.target → n'.ops = n.ops) ∧
        (n.idx.target = n.idx.count + 1 →
          ∃ ex, ex ≠ [] ∧ n'.ops = n.ops ++ ex)) ∧
      (fs.any (fun o => o.visible_at n.clock) = false →
        n'.idx.count = n.idx.count ∧ n'.idx.lastKey = n.idx.lastKey ∧
        n'.ops = n.ops) := by
  induction fs with
  | nil =>
    intro rest n k _ _ _
    refine ⟨n, rfl, rfl, rfl, fun h => ?_, fun _ => ⟨rfl, rfl, rfl⟩⟩
    simp at h
  | cons o fs ih =>
    intro rest n k hfs hlk hcnt
    obtain ⟨ho1, ho2⟩ := hfs o (List.mem_cons_self o fs)
    have hfs' : ∀ x ∈ fs, x.insert = false ∧ x.elemid_or_key = k :=
      fun x hx => hfs x (List.mem_cons_of_mem o hx)
    have hnotfin : (o.insert && n.idx.done) = false := by rw [ho1]; rfl
    have hlk' : n.idx.lastKey ≠ some o.elemid_or_key := by
      rw [ho2]
      exact hlk
    rcases Bool.eq_false_or_eq_true (o.visible_at n.clock) with hv | hv
    · by_cases hreach : n.idx.target ≤ n.idx.count + 1
      · have htt : n.idx.target = n.idx.count + 1 :=
          Nat.le_antisymm hreach hcnt
        obtain ⟨f1, f2, f3, f4, f5, f6⟩ :=
          n.qe_visible_new_reached_facts o hnotfin hv hlk' hreach
        obtain ⟨n', ex, hw, ht, hc, hlkk, hcl, hops, _⟩ :=
          Nth.walk_followers_seen fs rest ((n.query_element o).1) k hfs'
            (by rw [f4, ho2])
        refine ⟨n', ?_, ?_, ?_, fun _ => ⟨?_, hlkk, ?_, fun _ => ?_⟩,
          fun hfalse => ?_⟩
        · rw [List.cons_append, n.walk_cons_next o (fs ++ rest) f1, hw]
        · rw [ht, f2]
        · rw [hcl, f5]
        · rw [hc, f3]
        · intro h2
          omega
        · refine ⟨o :: ex, by simp, ?_⟩
          rw [hops, f6]
          simp
        · rw [List.any_cons, hv] at hfalse
          simp at hfalse
      · obtain ⟨f1, f2, f3, f4, f5, f6⟩ :=
          n.qe_visible_new_not_reached_facts o hnotfin hv hlk' hreach
        obtain ⟨n', ex, hw, ht, hc, hlkk, hcl, hops, hdone⟩ :=
          Nth.walk_followers_seen fs rest ((n.query_element o).1) k hfs'
            (by rw [f4, ho2])
        have hd1 : (n.query_element o).1.idx.done = false := by
          simp only [ListState.done, f2, f3, decide_eq_false_iff_not]
          omega
        have hops' : n'.ops = n.ops := by
          rw [hops, hdone hd1, f6]
          simp
        refine ⟨n', ?_, ?_, ?_, fun _ => ⟨?_, hlkk, fun _ => hops', fun h => ?_⟩,
          fun hfalse => ?_⟩
        · rw [List.cons_append, n.walk_cons_next o (fs ++ rest) f1, hw]
        · rw [ht, f2]
        · rw [hcl, f5]
        · rw [hc, f3]
        · omega
        · rw [List.any_cons, hv] at hfalse
          simp at hfalse
    · obtain ⟨f1, f2, f3, f4, f5, f6, f7⟩ := n.qe_invisible_facts o hnotfin hv
      obtain ⟨n', hw, ht, hcl, hpos, hneg⟩ :=
        ih rest ((n.query_element o).1) k hfs' (by rw [f4]; exact hlk)
          (by rw [f3, f2]; exact hcnt)
      rw [f2, f3, f6, f7] at hpos
      rw [f3, f4, f6, f7] at hneg
      refine ⟨n', ?_, ?_, ?_, fun h => hpos ?_, fun h => hneg ?_⟩
      · rw [List.cons_append, n.walk_cons_next o (fs ++ rest) f1, hw]
      · rw [ht, f2]
      · rw [hcl, f6]
      · rw [List.any_cons, hv] at h
        simpa using h
      · rw [List.any_cons, hv] at h
        simpa using h

/-- Walking one whole element block from a not-yet-done cursor that has not
counted this element's key: a visible block adds exactly one to the count;
the result set changes exactly when that one reaches the target. -/
theorem Nth.walk_block (b : Op × List Op) (rest : List Op) (n : Nth)
    (hb : isBlock b) (hlk : n.idx.lastKey ≠ some (Key.seq b.1.id))
    (hcnt : n.idx.count + 1 ≤ n.idx.target) :
    ∃ (n' : Nth), n.walk (blockOps b ++ rest) = n'.walk rest ∧
      n'.idx.target = n.idx.target ∧ n'.clock = n.clock ∧
      (blockVisible n.clock b = true →
        n'.idx.count = n.idx.count + 1 ∧
        n'.idx.lastKey = some (Key.seq b.1.id) ∧
        (n.idx.count + 2 ≤ n.idx.target → n'.ops = n.ops) ∧
        (n.idx.target = n.idx.count + 1 →
          ∃ ex, ex ≠ [] ∧ n'.ops = n.ops ++ ex)) ∧
      (blockVisible n.clock b = false →
        n'.idx.count = n.idx.count ∧ n'.idx.lastKey = n.idx.lastKey ∧
        n'.ops = n.ops) := by
  obtain ⟨hb1, hb2⟩ := hb
  have hkey : b.1.elemid_or_key = Key.seq b.1.id := by
    simp [Op.elemid_or_key, hb1]
  have hfs : ∀ x ∈ b.2, x.insert = false ∧ x.elemid_or_key = Key.seq b.1.id :=
    fun x hx => ⟨(hb2 x hx).1,
      by simp [Op.elemid_or_key, (hb2 x hx).1, (hb2 x hx).2]⟩
  have hd : n.idx.done = false := by
    simp only [ListState.done, decide_eq_false_iff_not]
    omega
  have hnotfin : (b.1.insert && n.idx.done) = false := by rw [hb1, hd]; rfl
  have hlk' : n.idx.lastKey ≠ some b.1.elemid_or_key := by
    rw [hkey]
    exact hlk
  simp only [blockOps, List.cons_append]
  rcases Bool.eq_false_or_eq_true (b.1.visible_at n.clock) with hv | hv
  · by_cases hreach : n.idx.target ≤ n.idx.count + 1
    · obtain ⟨f1, f2, f3, f4, f5, f6⟩ :=
        n.qe_visible_new_reached_facts b.1 hnotfin hv hlk' hreach
      obtain ⟨n', ex, hw, ht, hc, hlkk, hcl, hops, _⟩ :=
        Nth.walk_followers_seen b.2 rest ((n.query_element b.1).1)
          (Key.seq b.1.id) hfs (by rw [f4, hkey])
      refine ⟨n', ?_, ?_, ?_, fun _ => ⟨?_, hlkk, ?_, fun _ => ?_⟩,
        fun hfalse => ?_⟩
      · rw [n.walk_cons_next b.1 (b.2 ++ rest) f1, hw]
      · rw [ht, f2]
      · rw [hcl, f5]
      · rw [hc, f3]
      · intro h2
        omega
      · refine ⟨b.1 :: ex, by simp, ?_⟩
        rw [hops, f6]
        simp
      · simp [blockVisible, blockOps, hv] at hfalse
    · obtain ⟨f1, f2, f3, f4, f5, f6⟩ :=
        n.qe_visible_new_not_reached_facts b.1 hnotfin hv hlk' hreach
      obtain ⟨n', ex, hw, ht, hc, hlkk, hcl, hops, hdone⟩ :=
        Nth.walk_followers_seen b.2 rest ((n.query_element b.1).1)
          (Key.seq b.1.id) hfs (by rw [f4, hkey])
      have hd1 : (n.query_element b.1).1.idx.done = false := by
        simp only [ListState.done, f2, f3, decide_eq_false_iff_not]
        omega
      have hops' : n'.ops = n.ops := by
        rw [hops, hdone hd1, f6]
        simp
      refine ⟨n', ?_, ?_, ?_, fun _ => ⟨?_, hlkk, fun _ => hops', fun h => ?_⟩,
        fun hfalse => ?_⟩
      · rw [n.walk_cons_next b.1 (b.2 ++ rest) f1, hw]
      · rw [ht, f2]
      · rw [hcl, f5]
      · rw [hc, f3]
      · omega
      · simp [blockVisible, blockOps, hv] at hfalse
  · obtain ⟨f1, f2, f3, f4, f5, f6, f7⟩ := n.qe_invisible_facts b.1 hnotfin hv
    obtain ⟨n', hw, ht, hcl, hpos, hneg⟩ :=
      Nth.walk_followers_new b.2 rest ((n.query_element b.1).1)
        (Key.seq b.1.id) hfs (by rw [f4]; exact hlk) (by rw [f3, f2]; exact hcnt)
    rw [f2, f3, f6, f7] at hpos
    rw [f3, f4, f6, f7] at hneg
    refine ⟨n', ?_, ?_, ?_, fun h => hpos ?_, fun h => hneg ?_⟩
    · rw [n.walk_cons_next b.1 (b.2 ++ rest) f1, hw]
    · rw [ht, f2]
    · rw [hcl, f6]
    · simp only [blockVisible, blockOps, List.any_cons, hv] at h
      simpa using h
    · simp only [blockVisible, blockOps, List.any_cons, hv] at h
      simpa using h

/-- Once the cursor is done, the walk stops at the very next block: its
insert-flagged head triggers the finish rule and the state is unchanged. -/
theorem Nth.walk_done_blocks (blocks : List (Op × List Op)) (n : Nth)
    (hb : ∀ b ∈ blocks, isBlock b) (hd : n.idx.done = true) :
    n.walk (docOps blocks) = n := by
  cases blocks with
  | nil => rfl
  | cons b rest =>
    have h1 : b.1.insert = true := (hb b (List.mem_cons_self b rest)).1
    have hfin := n.qe_finish b.1 h1 hd
    have hfin2 : (n.query_element b.1).2 = QueryResult.finish := by rw [hfin]
    have hfin1 : (n.query_element b.1).1 = n := by rw [hfin]
    simp only [docOps, blockOps, List.cons_append]
    rw [n.walk_cons_finish b.1 (b.2 ++ docOps rest) hfin2, hfin1]

/-- Master lemma: from a fresh-enough state (nothing resolved, target not
yet reached, upcoming element keys uncounted and pairwise distinct), if
enough visible elements remain then the walk resolves at least one
operation and stops with count equal to the target. -/
theorem Nth.walk_blocks_resolves (blocks : List (Op × List Op)) : ∀ (n : Nth),
    (∀ b ∈ blocks, isBlock b) →
    (blocks.map (fun b => b.1.id)).Nodup →
    (∀ b ∈ blocks, n.idx.lastKey ≠ some (Key.seq b.1.id)) →
    n.ops = [] →
    n.idx.count + 1 ≤ n.idx.target →
    n.idx.target ≤ n.idx.count + visibleLength n.clock blocks →
    (n.walk (docOps blocks)).ops ≠ [] ∧
      (n.walk (docOps blocks)).idx.count = n.idx.target := by
  induction blocks with
  | nil =>
    intro n _ _ _ _ hcnt hlen
    simp [visibleLength] at hlen
    omega
  | cons b rest ih =>
    intro n hball hnd hlks hops0 hcnt hlen
    obtain ⟨n', hw, ht, hcl, hpos, hneg⟩ :=
      Nth.walk_block b (docOps rest) n (hball b (List.mem_cons_self b rest))
        (hlks b (List.mem_cons_self b rest)) hcnt
    have hball' : ∀ b' ∈ rest, isBlock b' :=
      fun b' hb' => hball b' (List.mem_cons_of_mem b hb')
    have hnd1 : b.1.id ∉ rest.map (fun b => b.1.id) := by
      rw [List.map_cons, List.nodup_cons] at hnd
      exact hnd.1
    have hnd' : (rest.map (fun b => b.1.id)).Nodup := by
      rw [List.map_cons, List.nodup_cons] at hnd
      exact hnd.2
    have hwd : n.walk (docOps (b :: rest)) = n'.walk (docOps rest) := hw
    rcases Bool.eq_false_or_eq_true (blockVisible n.clock b) with hv | hv
    · by_cases htt : n.idx.target = n.idx.count + 1
      · obtain ⟨hc', hlk', _, hex⟩ := hpos hv
        obtain ⟨ex, hexne, hops'⟩ := hex htt
        have hd' : n'.idx.done = true := by
          simp only [ListState.done, decide_eq_true_eq]
          rw [ht, hc']
          omega
        have hrest : n'.walk (docOps rest) = n' :=
          Nth.walk_done_blocks rest n' hball' hd'
        rw [hwd, hrest]
        constructor
        · rw [hops', hops0]
          simpa using hexne
        · rw [hc']
          omega
      · have h2 : n.idx.count + 2 ≤ n.idx.target := by omega
        obtain ⟨hc', hlk', hops1, _⟩ := hpos hv
        have hops' : n'.ops = [] := by rw [hops1 h2, hops0]
        have hlks' : ∀ b' ∈ rest, n'.idx.lastKey ≠ some (Key.seq b'.1.id) := by
          intro b' hb'
          rw [hlk']
          intro hcontra
          have hid : b.1.id = b'.1.id := by simpa using hcontra
          exact hnd1 (hid ▸ List.mem_map_of_mem (fun b => b.1.id) hb')
        have hcnt' : n'.idx.count + 1 ≤ n'.idx.target := by
          rw [hc', ht]
          omega
        have hvl : visibleLength n.clock (b :: rest) =
            1 + visibleLength n.clock rest := by
          simp [visibleLength, hv]
        have hlen' : n'.idx.target ≤
            n'.idx.count + visibleLength n'.clock rest := by
          rw [ht, hc', hcl]
          rw [hvl] at hlen
          omega
        obtain ⟨g1, g2⟩ := ih n' hball' hnd' hlks' hops' hcnt' hlen'
        rw [hwd]
        exact ⟨g1, by rw [g2, ht]⟩
    · obtain ⟨hc', hlk', hops'⟩ := hneg hv
      have hlks' : ∀ b' ∈ rest, n'.idx.lastKey ≠ some (Key.seq b'.1.id) := by
        intro b' hb'
        rw [hlk']
        exact hlks b' (List.mem_cons_of_mem b hb')
      have hcnt' : n'.idx.count + 1 ≤ n'.idx.target := by
        rw [hc', ht]
        exact hcnt
      have hvl : visibleLength n.clock (b :: rest) =
          visibleLength n.clock rest := by
        simp [visibleLength, hv]
      have hlen' : n'.idx.target ≤
          n'.idx.count + visibleLength n'.clock rest := by
        rw [ht, hc', hcl]
        rw [hvl] at hlen
        exact hlen
      have hops'' : n'.ops = [] := by rw [hops', hops0]
      obtain ⟨g1, g2⟩ := ih n' hball' hnd' hlks' hops'' hcnt' hlen'
      rw [hwd]
      exact ⟨g1, by rw [g2, ht]⟩

/-! ### Claim theorems -/

/-- C1: `can_shortcut_search` evaluated at the failing input — contrary to
the claim, a query constructed with a present clock can still return true
(the source checks marks and the bookmark but never the clock). -/
theorem nth_can_shortcut_search_ignores_clock :
    (exQueryClock.can_shortcut_search exTree).2 = true ∧
      exQueryClock.clock.isSome = true ∧ exQueryClock.marks = none := by
  decide

/-- C2: evaluated at the failing input, the shortcut fires (returns true)
for a clock-carrying query, yet its result differs from the full walk over
the same tree: the shortcut resolves `exOp1` at index 1 while the walk
under the clock resolves nothing and reports index 0. -/
theorem nth_shortcut_differs_from_walk_under_clock :
    (exQueryClock.can_shortcut_search exTree).2 = true ∧
      (exQueryClock.can_shortcut_search exTree).1.ops = [exOp1] ∧
      (exQueryClock.walk exTree.internal).ops = [] ∧
      (exQueryClock.can_shortcut_search exTree).1.index = 1 ∧
      (exQueryClock.walk exTree.internal).index = 0 := by
  decide

/-- C3: when an element has its insert flag set and the cursor already
reports done, `query_element` finishes immediately with the state fully
unchanged: the element is not fed to the mark accumulator, not passed to
the position cursor, and not appended to the result set. -/
theorem nth_query_element_insert_done_finishes (n : Nth) (e : Op)
    (h1 : e.insert = true) (h2 : n.idx.done = true) :
    n.query_element e = (n, QueryResult.finish) :=
  n.qe_finish e h1 h2

/-- C3 witness: a done, marks-enabled query finishes untouched on the next
insert-flagged operation. -/
theorem nth_query_element_insert_done_finishes_witness :
    exDoneQuery.query_element exOp1 = (exDoneQuery, QueryResult.finish) :=
  nth_query_element_insert_done_finishes exDoneQuery exOp1 (by decide)
    (by decide)

/-- C5: with a present clock, `query_node` always answers Descend and the
cursor's bulk skip `process_node` is never invoked — the state changes only
by the advisory clean-flag update. -/
theorem nth_query_node_descend_with_clock (n : Nth) (child : OpTreeNode)
    (ops : List Op) (h : n.clock.isSome = true) :
    n.query_node child ops =
      ({ n with idx := n.idx.check_if_node_is_clean child },
        QueryResult.descend) := by
  rcases hc : n.clock with _ | c
  · rw [hc] at h
    simp at h
  · simp [Nth.query_node, hc]

/-- C5 witness. -/
theorem nth_query_node_descend_with_clock_witness :
    exQueryClock.query_node ⟨5, 7, true⟩ [] =
      ({ exQueryClock with
          idx := exQueryClock.idx.check_if_node_is_clean ⟨5, 7, true⟩ },
        QueryResult.descend) :=
  nth_query_node_descend_with_clock exQueryClock ⟨5, 7, true⟩ [] (by decide)

/-- C7: whenever `query_element` does not take the insert-and-done finish
and marks are enabled, the element is fed to the mark accumulator — with no
visibility condition, so invisible/tombstoned elements are accumulated
too. -/
theorem nth_query_element_marks_any_visibility (n : Nth) (e : Op)
    (m : MarkMap) (hm : n.marks = some m)
    (h : (e.insert && n.idx.done) = false) :
    (n.query_element e).1.marks = some (m.process e) := by
  unfold Nth.query_element
  rw [h]
  simp only [Bool.false_eq_true, if_false, hm, Option.map_some']
  split <;> rfl

/-- C7 witness: an invisible (tombstoned) mark-begin operation is still fed
to the accumulator. -/
theorem nth_query_element_marks_any_visibility_witness :
    (exMarksQuery.query_element exMarkOp).1.marks =
      some (MarkMap.process [] exMarkOp) :=
  nth_query_element_marks_any_visibility exMarksQuery exMarkOp [] (by decide)
    (by decide)

/-- C8: whenever mark accumulation is requested, neither optimization can
fire: `can_shortcut_search` returns false with the state untouched, and
`query_node` always answers Descend (never skips a subtree). -/
theorem nth_marks_disable_shortcut_and_skip (n : Nth) (m : MarkMap)
    (tree : OpTree) (child : OpTreeNode) (ops : List Op)
    (hm : n.marks = some m) :
    n.can_shortcut_search tree = (n, false) ∧
      (n.query_node child ops).2 = QueryResult.descend := by
  constructor
  · unfold Nth.can_shortcut_search
    simp [hm]
  · unfold Nth.query_node
    dsimp only
    split
    · simp [hm, ListState.process_node]
    · rfl

/-- C8 witness: against a tree whose bookmark matches the target (so the
shortcut would otherwise fire), a marks-enabled query neither shortcuts nor
skips. -/
theorem nth_marks_disable_shortcut_and_skip_witness :
    exMarksQuery.can_shortcut_search exTree = (exMarksQuery, false) ∧
      (exMarksQuery.query_node ⟨5, 7, true⟩ []).2 = QueryResult.descend :=
  nth_marks_disable_shortcut_and_skip exMarksQuery [] exTree ⟨5, 7, true⟩ []
    (by decide)

/-- C9: `equiv` holds exactly when the two resolved indices and resolved
keys agree, and it is invariant under any change of the remaining state
(ops, ops_pos, marks, clock) that preserves `index()` and `key()`. -/
theorem nth_equiv_iff_index_and_key (a b a' b' : Nth)
    (ha1 : a'.index = a.index) (ha2 : a'.key = a.key)
    (hb1 : b'.index = b.index) (hb2 : b'.key = b.key) :
    (a.equiv b = true ↔ (a.index = b.index ∧ a.key = b.key)) ∧
      a'.equiv b' = a.equiv b := by
  constructor
  · simp [Nth.equiv]
  · simp only [Nth.equiv, ha1, ha2, hb1, hb2]

/-- C9 witness: dressing a query state with marks, a clock and extra
recorded positions leaves equivalence unchanged. -/
theorem nth_equiv_iff_index_and_key_witness :
    (exPlain.equiv exPlain = true ↔
        (exPlain.index = exPlain.index ∧ exPlain.key = exPlain.key)) ∧
      exDressed.equiv exDressed = exPlain.equiv exPlain :=
  nth_equiv_iff_index_and_key exPlain exPlain exDressed exDressed (by decide)
    (by decide) (by decide) (by decide)

/-- C4 counterexample: a query constructed with target 1 that resolved no
operation fails with `InvalidIndex 1` — the requested index itself — and
not with `InvalidIndex 0` as the claim (target minus one, saturating)
predicts. -/
theorem nth_key_not_target_minus_one :
    exMissQuery.ops.head?.bind Op.elemid = none ∧
      exMissQuery.key = KeyResult.err (AutomergeError.invalidIndex 1) ∧
      exMissQuery.key ≠ KeyResult.err (AutomergeError.invalidIndex 0) := by
  decide

/-- C4 amended: whenever a query constructed for index `t` resolves no
operation, `key()` fails with `InvalidIndex t` — the requested index
itself, i.e. the cursor's target (`t + 1`) minus one. -/
theorem nth_key_invalid_index_is_target (t : Nat) (enc : ListEncoding)
    (c : Option Clock) (l : List Op)
    (h : ((Nth.new t enc c).walk l).ops.head?.bind Op.elemid = none) :
    ((Nth.new t enc c).walk l).key =
      KeyResult.err (AutomergeError.invalidIndex t) := by
  unfold Nth.key
  rw [h]
  rw [Nth.walk_target (Nth.new t enc c) l]
  simp [Nth.new, ListState.new]

theorem Nth.qe_ops_cases (n : Nth) (e : Op) :
    ((n.query_element e).1.ops = n.ops ∧
        (n.query_element e).1.ops_pos = n.ops_pos) ∨
      ((n.query_element e).1.ops = n.ops ++ [e] ∧
        (n.query_element e).1.ops_pos =
          n.ops_pos ++ [(n.query_element e).1.idx.pos - 1]) := by
  unfold Nth.query_element
  dsimp only
  split
  · exact Or.inl ⟨rfl, rfl⟩
  · split
    · exact Or.inr ⟨rfl, rfl⟩
    · exact Or.inl ⟨rfl, rfl⟩

theorem Nth.shortcut_ops_cases (n : Nth) (tree : OpTree) :
    ((n.can_shortcut_search tree).1.ops = n.ops ∧
        (n.can_shortcut_search tree).1.ops_pos = n.ops_pos) ∨
      (∃ last op, tree.last_insert = some last ∧
        tree.internal.get? last.pos = some op ∧
        (n.can_shortcut_search tree).1.ops = n.ops ++ [op] ∧
        (n.can_shortcut_search tree).1.ops_pos = n.ops_pos ++ [last.pos]) := by
  unfold Nth.can_shortcut_search
  split
  · exact Or.inl ⟨rfl, rfl⟩
  · split
    · rename_i last hlast
      split
      · split
        · rename_i op hop
          exact Or.inr ⟨last, op, hlast, hop, rfl, rfl⟩
        · exact Or.inl ⟨rfl, rfl⟩
      · exact Or.inl ⟨rfl, rfl⟩
    · exact Or.inl ⟨rfl, rfl⟩

/-- C10: `ops` and `ops_pos` stay in lockstep: both are empty at
construction, `query_node` never touches them, the two mutating operations
preserve equality of lengths, and each either leaves both untouched or
appends exactly one operation paired with its recorded tree offset. -/
theorem nth_ops_pos_lockstep (t : Nat) (enc : ListEncoding) (c : Option Clock)
    (n : Nth) (tree : OpTree) (child : OpTreeNode) (ops : List Op) (e : Op)
    (hlen : n.ops.length = n.ops_pos.length) :
    ((Nth.new t enc c).ops = [] ∧ (Nth.new t enc c).ops_pos = []) ∧
      ((n.query_node child ops).1.ops = n.ops ∧
        (n.query_node child ops).1.ops_pos = n.ops_pos) ∧
      ((n.can_shortcut_search tree).1.ops.length =
          (n.can_shortcut_search tree).1.ops_pos.length ∧
        (n.query_element e).1.ops.length =
          (n.query_element e).1.ops_pos.length) ∧
      ((n.can_shortcut_search tree).1.ops = n.ops ∧
          (n.can_shortcut_search tree).1.ops_pos = n.ops_pos ∨
        ∃ last op, tree.last_insert = some last ∧
          tree.internal.get? last.pos = some op ∧
          (n.can_shortcut_search tree).1.ops = n.ops ++ [op] ∧
          (n.can_shortcut_search tree).1.ops_pos = n.ops_pos ++ [last.pos]) ∧
      ((n.query_element e).1.ops = n.ops ∧
          (n.query_element e).1.ops_pos = n.ops_pos ∨
        (n.query_element e).1.ops = n.ops ++ [e] ∧
          (n.query_element e).1.ops_pos =
            n.ops_pos ++ [(n.query_element e).1.idx.pos - 1]) := by
  refine ⟨⟨rfl, rfl⟩, ?_, ⟨?_, ?_⟩, n.shortcut_ops_cases tree, n.qe_ops_cases e⟩
  · unfold Nth.query_node
    dsimp only
    split <;> exact ⟨rfl, rfl⟩
  · rcases n.shortcut_ops_cases tree with ⟨h1, h2⟩ | ⟨_, _, _, _, h1, h2⟩ <;>
      simp [h1, h2, hlen]
  · rcases n.qe_ops_cases e with ⟨h1, h2⟩ | ⟨h1, h2⟩ <;> simp [h1, h2, hlen]

/-- C10 witness. -/
theorem nth_ops_pos_lockstep_witness :
    exQueryClock.ops.length = exQueryClock.ops_pos.length ∧
      ((exQueryClock.can_shortcut_search exTree).1.ops.length =
          (exQueryClock.can_shortcut_search exTree).1.ops_pos.length ∧
        (exQueryClock.query_element exOp0).1.ops.length =
          (exQueryClock.query_element exOp0).1.ops_pos.length) :=
  ⟨by decide,
    (nth_ops_pos_lockstep 0 ListEncoding.list none exQueryClock exTree
      ⟨5, 7, true⟩ [] exOp0 (by decide)).2.2.1⟩

/-- C6: over any well-formed document (a concatenation of element blocks
with pairwise distinct element ids), any snapshot clock and any target
`t < visibleLength`, the completed walk resolves at least one operation and
reports `index() = t`. -/
theorem nth_in_range_resolves (t : Nat) (enc : ListEncoding)
    (c : Option Clock) (blocks : List (Op × List Op))
    (hb : ∀ b ∈ blocks, isBlock b)
    (hnd : (blocks.map (fun b => b.1.id)).Nodup)
    (hlen : t + 1 ≤ visibleLength c blocks) :
    ((Nth.new t enc c).walk (docOps blocks)).ops ≠ [] ∧
      ((Nth.new t enc c).walk (docOps blocks)).index = t := by
  obtain ⟨g1, g2⟩ :=
    Nth.walk_blocks_resolves blocks (Nth.new t enc c) hb hnd
      (by
        intro b _
        simp [Nth.new, ListState.new])
      rfl
      (by simp [Nth.new, ListState.new])
      (by simpa [Nth.new, ListState.new] using hlen)
  refine ⟨g1, ?_⟩
  have hg2 : ((Nth.new t enc c).walk (docOps blocks)).idx.count = t + 1 := by
    rw [g2]
    rfl
  unfold Nth.index ListState.last_index
  rw [hg2]
  simp

/-- C6 witness: target 1 over a two-element document at tip state. -/
theorem nth_in_range_resolves_witness :
    ((Nth.new 1 ListEncoding.list none).walk (docOps exBlocks)).ops ≠ [] ∧
      ((Nth.new 1 ListEncoding.list none).walk (docOps exBlocks)).index = 1 :=
  nth_in_range_resolves 1 ListEncoding.list none exBlocks (by decide)
    (by decide) (by decide)

/-- C4 amended witness. -/
theorem nth_key_invalid_index_is_target_witness :
    ((Nth.new 1 ListEncoding.list none).walk [exOp0]).key =
      KeyResult.err (AutomergeError.invalidIndex 1) :=
  nth_key_invalid_index_is_target 1 ListEncoding.list none [exOp0] (by decide)

end Automerge
